import Mathlib

/-!
Shallow embedding of the naive Bayes classifier from `src/lib.rs` of the
`naive_bayes` crate, together with proofs about it.

Modelling conventions:
* `f64` scores are modelled by `ℚ` (all scores here are products of
  non-negative rationals, so no NaN/infinity arises and `cmp_f64` coincides
  with the rational order).
* The `BTreeHistogram<L>` produced by the `histogram_struct!` macro is an
  external dependency (not part of this repository's sources); following the
  spec (§4.1) it is modelled as an association list sorted by key: `bump`
  increments a key's count (inserting it at its ordered position on first
  use), `count` looks a key up, `iter` is list iteration in key order
  and `len` is the total-occurrences counter `count(label)/total_occurrences`
  of §4.1 (the denominator is shared by all labels, so ranking never depends
  on this choice).
* The `HashMap<F, HashHistogram<L>>` is modelled as `F → Option (L → Nat)`:
  the code only ever calls `contains_key`/`insert`/`get`/`get_mut` on the
  outer map and `bump`/`count` on the inner histogram, never iterating
  either, so hashing order is irrelevant.
* A Rust panic (`rankings.last().unwrap()` on an untrained model) is
  modelled by `classify` returning `none`.
-/

namespace NB

/-- `BTreeHistogram::bump`: increment `l`'s count, inserting `(l, 1)` at its
ordered position when `l` is not yet present. -/
def bumpBT {L : Type} [LinearOrder L] : List (L × Nat) → L → List (L × Nat)
  | [], l => [(l, 1)]
  | (k, c) :: rest, l =>
    if l < k then (l, 1) :: (k, c) :: rest
    else if l = k then (k, c + 1) :: rest
    else (k, c) :: bumpBT rest l

/-- `BTreeHistogram::count`: the count stored for `l`, `0` if absent. -/
def countBT {L : Type} [LinearOrder L] : List (L × Nat) → L → Nat
  | [], _ => 0
  | (k, c) :: rest, l => if l = k then c else countBT rest l

/-- `BTreeHistogram::len` as used by `p_label`: the total number of
occurrences recorded (the spec's total-occurrences counter, §4.1). -/
def totalBT {L : Type} (lc : List (L × Nat)) : Nat :=
  (lc.map Prod.snd).sum

/-- `HashHistogram::bump`: pointwise increment of the count of `l`. -/
def bumpFn {L : Type} [DecidableEq L] (h : L → Nat) (l : L) : L → Nat :=
  fun x => if x = l then h x + 1 else h x

/-- The `NaiveBayes` struct: the extraction function, the label histogram
(`label_counts`) and the per-feature label histograms (`feature_counts`). -/
structure NaiveBayes (L V F : Type) where
  extractor : V → List F
  label_counts : List (L × Nat)
  feature_counts : F → Option (L → Nat)

/-- `NaiveBayes::new`: empty histograms around the given extractor. -/
def NaiveBayes.new {L V F : Type} (e : V → List F) : NaiveBayes L V F :=
  ⟨e, [], fun _ => none⟩

/-- One iteration of `train`'s inner feature loop: insert an empty histogram
for `f` when absent, then bump `l` in it. -/
def bumpFC {L F : Type} [DecidableEq L] [DecidableEq F]
    (fc : F → Option (L → Nat)) (f : F) (l : L) : F → Option (L → Nat) :=
  fun g => if g = f then some (bumpFn ((fc f).getD fun _ => 0) l) else fc g

/-- One iteration of `train`'s outer loop: bump the example's label, then
bump every extracted feature with that label. -/
def trainStep {L V F : Type} [LinearOrder L] [DecidableEq F]
    (nb : NaiveBayes L V F) (ex : L × V) : NaiveBayes L V F :=
  { nb with
    label_counts := bumpBT nb.label_counts ex.1
    feature_counts :=
      (nb.extractor ex.2).foldl (fun fc f => bumpFC fc f ex.1) nb.feature_counts }

/-- `NaiveBayes::train`: fold `trainStep` over the batch in input order. -/
def NaiveBayes.train {L V F : Type} [LinearOrder L] [DecidableEq F]
    (nb : NaiveBayes L V F) (xs : List (L × V)) : NaiveBayes L V F :=
  xs.foldl trainStep nb

/-- `NaiveBayes::p_label`: `count(label) / total_occurrences` (§4.1). -/
def pLabel {L : Type} [LinearOrder L] (lc : List (L × Nat)) (l : L) : ℚ :=
  (countBT lc l : ℚ) / (totalBT lc : ℚ)

/-- The multiplicative factor a single extracted feature `f` contributes to
label `l`'s score in `classify`: when `f` is absent from `feature_counts`
the `if let Some` branch is skipped and the score is untouched (factor `1`);
otherwise the factor is `(count+1)/(label_total+1) * p_label(l)`. -/
def factor {L V F : Type} [LinearOrder L] (nb : NaiveBayes L V F) (f : F) (l : L) : ℚ :=
  match nb.feature_counts f with
  | none => 1
  | some h => ((h l + 1 : Nat) : ℚ) / ((countBT nb.label_counts l + 1 : Nat) : ℚ)
      * pLabel nb.label_counts l

/-- The final score `classify` computes for label `l`: the product of the
per-feature factors over the extracted feature sequence (starting from the
initial score `1.0`). -/
def scoreOf {L V F : Type} [LinearOrder L] (nb : NaiveBayes L V F) (ex : V) (l : L) : ℚ :=
  ((nb.extractor ex).map fun f => factor nb f l).prod

/-- One iteration of `classify`'s outer feature loop acting on the
`label_probs` map (an association list keyed like `label_counts`): when the
feature is unknown the `if let Some` test fails for every label and the map
is unchanged; otherwise every label's entry is multiplied by its factor.
(The `feature_counts.get` test depends only on the feature, so it is hoisted
out of the label loop; each label occurs once, so updating through
`get_mut(label)` is the pointwise map below.) -/
def applyFeature {L F : Type} [LinearOrder L] (lc : List (L × Nat))
    (fc : F → Option (L → Nat)) (probs : List (L × ℚ)) (f : F) : List (L × ℚ) :=
  match fc f with
  | none => probs
  | some h => probs.map fun p =>
      (p.1, p.2 * (((h p.1 + 1 : Nat) : ℚ) / ((countBT lc p.1 + 1 : Nat) : ℚ)
        * pLabel lc p.1))

/-- The `label_probs` map after `classify`'s nested loops: every known label
starts at `1.0` and accumulates the factors of the extracted features. -/
def scoresList {L V F : Type} [LinearOrder L] (nb : NaiveBayes L V F) (ex : V) :
    List (L × ℚ) :=
  (nb.extractor ex).foldl (applyFeature nb.label_counts nb.feature_counts)
    (nb.label_counts.map fun p => (p.1, (1 : ℚ)))

/-- Insertion into a list sorted ascending by score, placing the new element
after every element whose score is `≤` its own: this realises Rust's stable
`sort_by(cmp_w_label)` (equal scores keep their original relative order;
`cmp_f64` on our NaN-free scores is the rational order). -/
def insertLE {L : Type} (x : ℚ × L) : List (ℚ × L) → List (ℚ × L)
  | [] => [x]
  | y :: ys => if y.1 ≤ x.1 then y :: insertLE x ys else x :: y :: ys

/-- The stable ascending sort of the rankings by score. Rust's stable
`sort_by` and this insertion sort produce the same list: the stable sorted
permutation of a list under a total comparison is unique. -/
def stableSort {L : Type} (l : List (ℚ × L)) : List (ℚ × L) :=
  l.foldl (fun acc x => insertLE x acc) []

/-- `NaiveBayes::classify`: build `(score, label)` rankings in ascending
label order (BTreeMap iteration), stably sort by score, return the label of
the last entry. `rankings.last().unwrap()` panics on an empty ranking
(untrained model); the panic is modelled as `none`. -/
def NaiveBayes.classify {L V F : Type} [LinearOrder L] (nb : NaiveBayes L V F)
    (ex : V) : Option L :=
  (stableSort ((scoresList nb ex).map fun p => (p.2, p.1))).getLast?.map Prod.snd

/-- `feature_label_count(f, l)` of the spec: the count recorded for `l`
under feature `f`, `0` when `f` was never observed. -/
def fcCount {L V F : Type} (nb : NaiveBayes L V F) (f : F) (l : L) : Nat :=
  match nb.feature_counts f with
  | none => 0
  | some h => h l

/-- `fcCount` on a raw feature table: the count recorded for `l` under
feature `f`, `0` when `f` was never observed. -/
def fcCountF {L F : Type} (fc : F → Option (L → Nat)) (f : F) (l : L) : Nat :=
  match fc f with
  | none => 0
  | some h => h l

/-- The keys of the label histogram are strictly increasing (the `BTreeMap`
invariant; it holds in every reachable state). -/
def sortedKeys {L : Type} [LinearOrder L] (lc : List (L × Nat)) : Prop :=
  lc.Pairwise fun p q => p.1 < q.1

/-- The states reachable through the public interface: a fresh classifier,
or the result of a `train` call on a reachable state. -/
inductive Reachable {L V F : Type} [LinearOrder L] [DecidableEq F] :
    NaiveBayes L V F → Prop
  | new (e : V → List F) : Reachable (NaiveBayes.new e)
  | train (nb : NaiveBayes L V F) (xs : List (L × V)) :
      Reachable nb → Reachable (nb.train xs)

/-- Keep the later of two ranking entries unless its score is strictly
smaller: the accumulator step that computes the last element of the stable
ascending sort. -/
def pstep {L : Type} (a y : ℚ × L) : ℚ × L :=
  if a.1 ≤ y.1 then y else a

/-- `pstep` lifted to an optional accumulator. -/
def maxStep {L : Type} (o : Option (ℚ × L)) (x : ℚ × L) : ℚ × L :=
  match o with
  | none => x
  | some a => pstep a x

/-- Fold `maxStep` over a ranking: the element Rust's
`rankings.sort_by(...); rankings.last()` yields. -/
def pickFold {L : Type} (o : Option (ℚ × L)) (xs : List (ℚ × L)) : Option (ℚ × L) :=
  xs.foldl (fun o y => some (maxStep o y)) o

/-- Ranking entry `m` beats entry `x`: strictly larger score, or an equal
score with a label no smaller (the tie-break of `classify`). -/
def dominates {L : Type} [LinearOrder L] (m x : ℚ × L) : Prop :=
  x.1 < m.1 ∨ (x.1 = m.1 ∧ x.2 ≤ m.2)

/-- The identity extractor of the repository's test module. -/
def testExtractor : List (Char × Int) → List (Char × Int) := id

/-- The five training examples of the repository's test. -/
def testTraining : List (Char × List (Char × Int)) :=
  [('A', [('X', 5), ('Y', 4)]),
   ('A', [('X', 5), ('Y', 2)]),
   ('A', [('X', 3), ('Y', 2)]),
   ('B', [('X', 4), ('Y', 4)]),
   ('B', [('X', 5), ('Y', 3)])]

/-- The classifier trained on the five test examples. -/
def testNB : NaiveBayes Char (List (Char × Int)) (Char × Int) :=
  (NaiveBayes.new testExtractor).train testTraining

/-- A fresh classifier on which no `train` call has been made. -/
def untrainedNB : NaiveBayes Char Nat Nat :=
  NaiveBayes.new fun _ => []

/-- An extractor that returns the same feature twice for every example. -/
def dupExtractor : Nat → List Char := fun _ => ['Z', 'Z']

/-- The state after training the duplicate-feature classifier on one
example labelled 'A'. -/
def dupNB : NaiveBayes Char Nat Char :=
  (NaiveBayes.new dupExtractor).train [('A', 0)]

/-- A duplicate-free extractor: one feature per example. -/
def singExtractor : Nat → List Nat := fun v => [v]

/-- The singleton-feature classifier trained on two examples. -/
def singNB : NaiveBayes Char Nat Nat :=
  (NaiveBayes.new singExtractor).train [('A', 0), ('B', 1)]

/-- A fresh classifier used as the common starting state for the
order-invariance scenario. -/
def permBase : NaiveBayes Char Nat Nat :=
  NaiveBayes.new singExtractor

/-- Modelled from the spec: §7's *extraction failure* path is missing from
the source's types (the `NaiveBayesExtractor` trait returns a plain `Vec`,
so a failure there can only be a panic inside `train`'s loop). The fallible
extraction function is modelled as returning `none` on failure; `trainE`
processes examples in order exactly as the source loop does — bumping the
example's label **before** invoking extraction — and on a failure stops,
propagating the failure (the `false` flag) with the mutations already
performed retained, which is what a panic unwinding out of the source loop
leaves behind. -/
def trainE {L V F : Type} [LinearOrder L] [DecidableEq F]
    (extractE : V → Option (List F)) :
    NaiveBayes L V F → List (L × V) → NaiveBayes L V F × Bool
  | nb, [] => (nb, true)
  | nb, (l, v) :: rest =>
    match extractE v with
    | none => ({ nb with label_counts := bumpBT nb.label_counts l }, false)
    | some fs =>
      trainE extractE
        { nb with
          label_counts := bumpBT nb.label_counts l
          feature_counts := fs.foldl (fun fc f => bumpFC fc f l) nb.feature_counts }
        rest

/-- A fresh classifier paired below with a failing extraction function. -/
def failBase : NaiveBayes Char Nat Char :=
  NaiveBayes.new fun _ => []

/-- An extraction function that fails on every example. -/
def failExtract : Nat → Option (List Char) := fun _ => none

/-! ### Helper lemmas: the score computation -/

theorem applyFeature_map {L F : Type} [LinearOrder L] (lc : List (L × Nat))
    (fc : F → Option (L → Nat)) (g : L → ℚ) (f : F) :
    applyFeature lc fc (lc.map fun p => (p.1, g p.1)) f =
      lc.map fun p => (p.1, g p.1 *
        (match fc f with
         | none => 1
         | some h => ((h p.1 + 1 : Nat) : ℚ) / ((countBT lc p.1 + 1 : Nat) : ℚ)
             * pLabel lc p.1)) := by
  match hf : fc f with
  | none => simp [applyFeature, hf]
  | some h => simp [applyFeature, hf, List.map_map, Function.comp]

theorem foldl_applyFeature {L V F : Type} [LinearOrder L] (nb : NaiveBayes L V F)
    (fs : List F) (g : L → ℚ) :
    fs.foldl (applyFeature nb.label_counts nb.feature_counts)
        (nb.label_counts.map fun p => (p.1, g p.1)) =
      nb.label_counts.map fun p =>
        (p.1, g p.1 * ((fs.map fun f => factor nb f p.1).prod)) := by
  induction fs generalizing g with
  | nil => simp
  | cons f fs ih =>
    rw [List.foldl_cons, applyFeature_map]
    rw [ih fun l => g l *
      (match nb.feature_counts f with
       | none => 1
       | some h => ((h l + 1 : Nat) : ℚ) / ((countBT nb.label_counts l + 1 : Nat) : ℚ)
           * pLabel nb.label_counts l)]
    simp only [List.map_cons, List.prod_cons, factor, mul_assoc]

/-- The `label_probs` map computed by `classify` assigns to each known label
exactly the product of its per-feature factors. -/
theorem scoresList_eq {L V F : Type} [LinearOrder L] (nb : NaiveBayes L V F) (ex : V) :
    scoresList nb ex = nb.label_counts.map fun p => (p.1, scoreOf nb ex p.1) := by
  have h := foldl_applyFeature nb (nb.extractor ex) fun _ => (1 : ℚ)
  simpa [scoresList, scoreOf] using h

theorem scoresList_of_untrained {L V F : Type} [LinearOrder L] (nb : NaiveBayes L V F)
    (ex : V) (h : nb.label_counts = []) : scoresList nb ex = [] := by
  rw [scoresList_eq, h, List.map_nil]

/-! ### Helper lemmas: the stable sort and the ranking pick -/

theorem insertLE_ne_nil {L : Type} (x : ℚ × L) (l : List (ℚ × L)) :
    insertLE x l ≠ [] := by
  cases l with
  | nil => simp [insertLE]
  | cons y ys =>
    by_cases h : y.1 ≤ x.1 <;> simp [insertLE, h]

theorem chain_fst_le_getLast {L : Type} :
    ∀ (ys : List (ℚ × L)) (y a : ℚ × L),
      List.Chain' (fun p q => p.1 ≤ q.1) (y :: ys) →
      (y :: ys).getLast? = some a → y.1 ≤ a.1 := by
  intro ys
  induction ys with
  | nil =>
    intro y a _ hl
    simp only [List.getLast?_singleton, Option.some.injEq] at hl
    rw [hl]
  | cons z zs ih =>
    intro y a hc hl
    rw [List.getLast?_cons_cons] at hl
    have h1 : y.1 ≤ z.1 := (List.chain'_cons.mp hc).1
    exact le_trans h1 (ih z a (List.chain'_cons.mp hc).2 hl)

theorem insertLE_getLast {L : Type} :
    ∀ (acc : List (ℚ × L)) (x : ℚ × L),
      List.Chain' (fun p q => p.1 ≤ q.1) acc →
      (insertLE x acc).getLast? = some (maxStep acc.getLast? x) := by
  intro acc
  induction acc with
  | nil => intro x _; simp [insertLE, maxStep]
  | cons y ys ih =>
    intro x hc
    by_cases hle : y.1 ≤ x.1
    · rw [show insertLE x (y :: ys) = y :: insertLE x ys by simp [insertLE, hle]]
      have hys := ih x hc.tail
      cases hy : insertLE x ys with
      | nil => exact absurd hy (insertLE_ne_nil x ys)
      | cons w ws =>
        rw [hy] at hys
        rw [List.getLast?_cons_cons, hys]
        cases ys with
        | nil => simp [maxStep, pstep, hle]
        | cons z zs => rw [List.getLast?_cons_cons]
    · rw [show insertLE x (y :: ys) = x :: y :: ys by simp [insertLE, hle]]
      rw [List.getLast?_cons_cons]
      cases hl : (y :: ys).getLast? with
      | none => simp at hl
      | some a =>
        have hya : y.1 ≤ a.1 := chain_fst_le_getLast ys y a hc hl
        have hax : ¬ a.1 ≤ x.1 := fun h => hle (le_trans hya h)
        simp [maxStep, pstep, hax]

theorem insertLE_chain {L : Type} :
    ∀ (acc : List (ℚ × L)) (x : ℚ × L),
      List.Chain' (fun p q => p.1 ≤ q.1) acc →
      List.Chain' (fun p q => p.1 ≤ q.1) (insertLE x acc) := by
  intro acc
  induction acc with
  | nil => intro x _; simp [insertLE]
  | cons y ys ih =>
    intro x hc
    by_cases hle : y.1 ≤ x.1
    · rw [show insertLE x (y :: ys) = y :: insertLE x ys by simp [insertLE, hle]]
      refine List.chain'_cons'.mpr ⟨?_, ih x hc.tail⟩
      intro w hw
      cases ys with
      | nil =>
        simp only [insertLE, List.head?_cons, Option.mem_def, Option.some.injEq] at hw
        rw [← hw]; exact hle
      | cons z zs =>
        by_cases hz : z.1 ≤ x.1
        · rw [show insertLE x (z :: zs) = z :: insertLE x zs by simp [insertLE, hz]] at hw
          simp only [List.head?_cons, Option.mem_def, Option.some.injEq] at hw
          rw [← hw]; exact (List.chain'_cons.mp hc).1
        · rw [show insertLE x (z :: zs) = x :: z :: zs by simp [insertLE, hz]] at hw
          simp only [List.head?_cons, Option.mem_def, Option.some.injEq] at hw
          rw [← hw]; exact hle
    · rw [show insertLE x (y :: ys) = x :: y :: ys by simp [insertLE, hle]]
      refine List.chain'_cons'.mpr ⟨?_, hc⟩
      intro w hw
      simp only [List.head?_cons, Option.mem_def, Option.some.injEq] at hw
      rw [← hw]
      exact le_of_lt (lt_of_not_le hle)

theorem foldl_insert_getLast {L : Type} :
    ∀ (xs acc : List (ℚ × L)),
      List.Chain' (fun p q => p.1 ≤ q.1) acc →
      (xs.foldl (fun acc x => insertLE x acc) acc).getLast? = pickFold acc.getLast? xs := by
  intro xs
  induction xs with
  | nil => intro acc _; rfl
  | cons x xs ih =>
    intro acc hc
    rw [List.foldl_cons]
    rw [ih (insertLE x acc) (insertLE_chain acc x hc)]
    rw [insertLE_getLast acc x hc]
    rfl

/-- The last element of the stable ascending sort is the fold that keeps the
later entry on equal scores. -/
theorem stableSort_getLast {L : Type} (l : List (ℚ × L)) :
    (stableSort l).getLast? = pickFold none l :=
  foldl_insert_getLast l [] List.chain'_nil

theorem pickFold_some {L : Type} :
    ∀ (xs : List (ℚ × L)) (a : ℚ × L),
      pickFold (some a) xs = some (xs.foldl pstep a) := by
  intro xs
  induction xs with
  | nil => intro a; rfl
  | cons y ys ih => intro a; exact ih (pstep a y)

theorem pickAux {L : Type} [LinearOrder L] :
    ∀ (xs : List (ℚ × L)) (a : ℚ × L),
      (∀ x ∈ xs, a.2 < x.2) → xs.Pairwise (fun p q => p.2 < q.2) →
      (xs.foldl pstep a = a ∨ xs.foldl pstep a ∈ xs) ∧
        dominates (xs.foldl pstep a) a ∧ ∀ x ∈ xs, dominates (xs.foldl pstep a) x := by
  intro xs
  induction xs with
  | nil =>
    intro a _ _
    exact ⟨Or.inl rfl, Or.inr ⟨rfl, le_refl _⟩, by simp⟩
  | cons y ys ih =>
    intro a h1 h2
    rw [List.foldl_cons]
    have hstep : ∀ x ∈ ys, (pstep a y).2 < x.2 := by
      intro x hx
      unfold pstep
      split
      · exact (List.pairwise_cons.mp h2).1 x hx
      · exact h1 x (List.mem_cons_of_mem y hx)
    obtain ⟨hmem, hdom, hall⟩ := ih (pstep a y) hstep (List.pairwise_cons.mp h2).2
    set m := ys.foldl pstep (pstep a y) with hm
    have hdy : dominates m y := by
      by_cases hle : a.1 ≤ y.1
      · rw [show pstep a y = y by simp [pstep, hle]] at hdom
        exact hdom
      · rw [show pstep a y = a by simp [pstep, hle]] at hdom
        have hy : y.1 < a.1 := lt_of_not_le hle
        rcases hdom with h | h
        · exact Or.inl (lt_trans hy h)
        · exact Or.inl (lt_of_lt_of_le hy (le_of_eq h.1))
    have hda : dominates m a := by
      by_cases hle : a.1 ≤ y.1
      · rw [show pstep a y = y by simp [pstep, hle]] at hdom
        rcases hdom with h | h
        · exact Or.inl (lt_of_le_of_lt hle h)
        · rcases lt_or_eq_of_le hle with h' | h'
          · exact Or.inl (lt_of_lt_of_le h' (le_of_eq h.1))
          · exact Or.inr ⟨h'.trans h.1,
              le_trans (le_of_lt (h1 y (List.mem_cons_self y ys))) h.2⟩
      · rw [show pstep a y = a by simp [pstep, hle]] at hdom
        exact hdom
    refine ⟨?_, hda, ?_⟩
    · rcases hmem with h | h
      · by_cases hle : a.1 ≤ y.1
        · rw [show pstep a y = y by simp [pstep, hle]] at h
          exact Or.inr (h ▸ List.mem_cons_self y ys)
        · rw [show pstep a y = a by simp [pstep, hle]] at h
          exact Or.inl h
      · exact Or.inr (List.mem_cons_of_mem y h)
    · intro x hx
      rcases List.mem_cons.mp hx with h | h
      · exact h ▸ hdy
      · exact hall x h

/-- `classify` on a model with at least one known label and strictly sorted
label keys returns the known label that maximises `(score, label)`
lexicographically: the greatest score, ties broken towards the greater
label. -/
theorem classify_spec {L V F : Type} [LinearOrder L] (nb : NaiveBayes L V F) (ex : V)
    (hp : sortedKeys nb.label_counts) (hne : nb.label_counts ≠ []) :
    ∃ l, nb.classify ex = some l ∧ l ∈ nb.label_counts.map Prod.fst ∧
      ∀ l' ∈ nb.label_counts.map Prod.fst,
        scoreOf nb ex l' < scoreOf nb ex l ∨
          (scoreOf nb ex l' = scoreOf nb ex l ∧ l' ≤ l) := by
  set f : L × Nat → ℚ × L := fun p => (scoreOf nb ex p.1, p.1) with hf
  have hr : (scoresList nb ex).map (fun p => (p.2, p.1)) = nb.label_counts.map f := by
    rw [scoresList_eq, List.map_map]
    rfl
  cases hlc : nb.label_counts with
  | nil => exact absurd hlc hne
  | cons q rest =>
  have hr' : (scoresList nb ex).map (fun p => (p.2, p.1)) = f q :: rest.map f := by
    rw [hr, hlc, List.map_cons]
  have hplc : (q :: rest).Pairwise (fun p q => p.1 < q.1) := by
    have := hp
    rw [sortedKeys, hlc] at this
    exact this
  have hpw : (rest.map f).Pairwise fun p q => p.2 < q.2 :=
    List.pairwise_map.mpr ((List.pairwise_cons.mp hplc).2.imp fun h => h)
  have hhead : ∀ x ∈ rest.map f, (f q).2 < x.2 := by
    intro x hx
    obtain ⟨p, hpmem, hpx⟩ := List.mem_map.mp hx
    rw [← hpx]
    exact (List.pairwise_cons.mp hplc).1 p hpmem
  obtain ⟨hmem, hda, hall⟩ := pickAux (rest.map f) (f q) hhead hpw
  set m := (rest.map f).foldl pstep (f q) with hmdef
  have hclass : nb.classify ex = some m.2 := by
    unfold NaiveBayes.classify
    rw [stableSort_getLast, hr',
      show pickFold none (f q :: rest.map f) = pickFold (some (f q)) (rest.map f) from rfl,
      pickFold_some]
    rfl
  have hminr : m ∈ (q :: rest).map f := by
    rw [List.map_cons]
    rcases hmem with h | h
    · rw [h]; exact List.mem_cons_self _ _
    · exact List.mem_cons_of_mem _ h
  obtain ⟨pm, hpmmem, hpm⟩ := List.mem_map.mp hminr
  have hm2 : pm.1 = m.2 := congrArg Prod.snd hpm
  have hm1 : m.1 = scoreOf nb ex m.2 := by
    rw [← hpm]
  refine ⟨m.2, hclass, ?_, ?_⟩
  · rw [← hm2]
    exact List.mem_map.mpr ⟨pm, hpmmem, rfl⟩
  · intro l' hl'
    obtain ⟨p, hpmem, hpl⟩ := List.mem_map.mp hl'
    have hz : f p ∈ f q :: rest.map f := by
      rw [← List.map_cons]
      exact List.mem_map.mpr ⟨p, hpmem, rfl⟩
    have hdz : dominates m (f p) := by
      rcases List.mem_cons.mp hz with h | h
      · rw [h]; exact hda
      · exact hall _ h
    rw [← hpl]
    rcases hdz with h | h
    · left
      rw [← hm1]
      exact h
    · right
      exact ⟨by rw [← hm1]; exact h.1, h.2⟩

/-! ### Helper lemmas: label and feature counts under training -/

theorem countBT_not_mem {L : Type} [LinearOrder L] :
    ∀ (lc : List (L × Nat)) (l : L), l ∉ lc.map Prod.fst → countBT lc l = 0 := by
  intro lc
  induction lc with
  | nil => intro l _; rfl
  | cons kc rest ih =>
    intro l h
    simp only [List.map_cons, List.mem_cons, not_or] at h
    simp only [countBT, if_neg h.1]
    exact ih l h.2

theorem bumpBT_keys {L : Type} [LinearOrder L] :
    ∀ (lc : List (L × Nat)) (l : L) (q : L × Nat),
      q ∈ bumpBT lc l → q.1 = l ∨ q.1 ∈ lc.map Prod.fst := by
  intro lc
  induction lc with
  | nil =>
    intro l q hq
    simp only [bumpBT, List.mem_singleton] at hq
    exact Or.inl (by rw [hq])
  | cons kc rest ih =>
    intro l q hq
    obtain ⟨k, c⟩ := kc
    by_cases h1 : l < k
    · simp only [bumpBT, if_pos h1, List.mem_cons] at hq
      rcases hq with h | h | h
      · exact Or.inl (by rw [h])
      · exact Or.inr (by rw [h]; simp)
      · exact Or.inr (by simp [List.mem_map.mpr ⟨q, h, rfl⟩])
    · by_cases h2 : l = k
      · simp only [bumpBT, if_neg h1, if_pos h2, List.mem_cons] at hq
        rcases hq with h | h
        · exact Or.inr (by rw [h]; simp)
        · exact Or.inr (by simp [List.mem_map.mpr ⟨q, h, rfl⟩])
      · simp only [bumpBT, if_neg h1, if_neg h2, List.mem_cons] at hq
        rcases hq with h | h
        · exact Or.inr (by rw [h]; simp)
        · rcases ih l q h with h' | h'
          · exact Or.inl h'
          · exact Or.inr (by simp [h'])

theorem bumpBT_sorted {L : Type} [LinearOrder L] :
    ∀ (lc : List (L × Nat)) (l : L), sortedKeys lc → sortedKeys (bumpBT lc l) := by
  intro lc
  induction lc with
  | nil => intro l _; simp [bumpBT, sortedKeys]
  | cons kc rest ih =>
    intro l hs
    obtain ⟨k, c⟩ := kc
    have hs' := List.pairwise_cons.mp hs
    by_cases h1 : l < k
    · simp only [bumpBT, if_pos h1]
      refine List.pairwise_cons.mpr ⟨?_, hs⟩
      intro q hq
      rcases List.mem_cons.mp hq with h | h
      · rw [h]; exact h1
      · exact lt_trans h1 (hs'.1 q h)
    · by_cases h2 : l = k
      · simp only [bumpBT, if_neg h1, if_pos h2]
        exact List.pairwise_cons.mpr ⟨hs'.1, hs'.2⟩
      · simp only [bumpBT, if_neg h1, if_neg h2]
        refine List.pairwise_cons.mpr ⟨?_, ih l hs'.2⟩
        intro q hq
        rcases bumpBT_keys rest l q hq with h | h
        · rw [h]
          rcases lt_trichotomy l k with h' | h' | h'
          · exact absurd h' h1
          · exact absurd h' h2
          · exact h'
        · obtain ⟨p, hp, hpq⟩ := List.mem_map.mp h
          rw [← hpq]
          exact hs'.1 p hp

theorem countBT_bumpBT {L : Type} [LinearOrder L] :
    ∀ (lc : List (L × Nat)) (l l' : L), sortedKeys lc →
      countBT (bumpBT lc l) l' = countBT lc l' + if l' = l then 1 else 0 := by
  intro lc
  induction lc with
  | nil =>
    intro l l' _
    by_cases h : l' = l <;> simp [bumpBT, countBT, h]
  | cons kc rest ih =>
    intro l l' hs
    obtain ⟨k, c⟩ := kc
    have hs' := List.pairwise_cons.mp hs
    by_cases h1 : l < k
    · simp only [bumpBT, if_pos h1]
      by_cases h : l' = l
      · subst h
        have hz : countBT ((k, c) :: rest) l' = 0 := by
          apply countBT_not_mem
          simp only [List.map_cons, List.mem_cons, not_or]
          refine ⟨ne_of_lt h1, ?_⟩
          intro hmem
          obtain ⟨p, hp, hpl⟩ := List.mem_map.mp hmem
          have hkp : k < p.1 := hs'.1 p hp
          rw [hpl] at hkp
          exact absurd (lt_trans h1 hkp) (lt_irrefl l')
        rw [hz]
        simp [countBT]
      · simp [countBT, h]
    · by_cases h2 : l = k
      · subst h2
        simp only [bumpBT, if_neg h1, if_pos rfl]
        by_cases h : l' = l
        · subst h
          simp [countBT]
        · simp [countBT, h]
      · simp only [bumpBT, if_neg h1, if_neg h2]
        by_cases h : l' = k
        · subst h
          simp [countBT, Ne.symm h2]
        · simp only [countBT, if_neg h]
          exact ih l l' hs'.2

theorem fcCountF_bumpFC {L F : Type} [DecidableEq L] [DecidableEq F]
    (fc : F → Option (L → Nat)) (f0 : F) (l0 : L) (f : F) (l : L) :
    fcCountF (bumpFC fc f0 l0) f l = fcCountF fc f l + if f = f0 ∧ l = l0 then 1 else 0 := by
  by_cases hf : f = f0
  · subst hf
    simp only [fcCountF, bumpFC, if_pos rfl]
    cases hfc : fc f with
    | none => by_cases hl : l = l0 <;> simp [bumpFn, hfc, hl]
    | some h => by_cases hl : l = l0 <;> simp [bumpFn, hfc, hl]
  · simp [fcCountF, bumpFC, hf]

theorem fcCountF_foldl {L F : Type} [DecidableEq L] [DecidableEq F] (l0 : L) (f : F) (l : L) :
    ∀ (fs : List F) (fc : F → Option (L → Nat)),
      fcCountF (fs.foldl (fun fc g => bumpFC fc g l0) fc) f l =
        fcCountF fc f l + if l = l0 then fs.count f else 0 := by
  intro fs
  induction fs with
  | nil => intro fc; simp
  | cons g gs ih =>
    intro fc
    rw [List.foldl_cons, ih (bumpFC fc g l0), fcCountF_bumpFC]
    by_cases hl : l = l0 <;> by_cases hg : f = g <;>
      (simp [hl, hg, List.count_cons]; try omega)

theorem train_extractor {L V F : Type} [LinearOrder L] [DecidableEq F] :
    ∀ (xs : List (L × V)) (nb : NaiveBayes L V F), (nb.train xs).extractor = nb.extractor := by
  intro xs
  induction xs with
  | nil => intro nb; rfl
  | cons x xs ih => intro nb; exact ih (trainStep nb x)

theorem train_sorted {L V F : Type} [LinearOrder L] [DecidableEq F] :
    ∀ (xs : List (L × V)) (nb : NaiveBayes L V F),
      sortedKeys nb.label_counts → sortedKeys (nb.train xs).label_counts := by
  intro xs
  induction xs with
  | nil => intro nb h; exact h
  | cons x xs ih =>
    intro nb h
    exact ih (trainStep nb x) (bumpBT_sorted nb.label_counts x.1 h)

/-- Every reachable state has a strictly sorted label histogram (the
`BTreeMap` key invariant). -/
theorem reachable_sorted {L V F : Type} [LinearOrder L] [DecidableEq F]
    {nb : NaiveBayes L V F} (hr : Reachable nb) : sortedKeys nb.label_counts := by
  induction hr with
  | new e => exact List.Pairwise.nil
  | train nb xs _ ih => exact train_sorted xs nb ih

/-! ### Helper lemmas: commutation of training steps -/

theorem bumpBT_comm {L : Type} [LinearOrder L] :
    ∀ (lc : List (L × Nat)) (a b : L), bumpBT (bumpBT lc a) b = bumpBT (bumpBT lc b) a := by
  intro lc
  induction lc with
  | nil =>
    intro a b
    rcases lt_trichotomy a b with h | h | h
    · simp [bumpBT, h, h.ne', not_lt.mpr h.le]
    · rw [h]
    · simp [bumpBT, h, h.ne', not_lt.mpr h.le]
  | cons kc rest ih =>
    intro a b
    obtain ⟨k, c⟩ := kc
    rcases lt_trichotomy a k with hak | hak | hak <;>
      rcases lt_trichotomy b k with hbk | hbk | hbk
    · rcases lt_trichotomy a b with hab | hab | hab
      · simp [bumpBT, hak, hbk, hab, hab.ne', not_lt.mpr hab.le]
      · rw [hab]
      · simp [bumpBT, hak, hbk, hab, hab.ne', not_lt.mpr hab.le]
    · subst hbk
      simp [bumpBT, hak, hak.ne, hak.ne', not_lt.mpr hak.le, lt_irrefl]
    · have hab : a < b := lt_trans hak hbk
      simp [bumpBT, hak, hbk, hab, hab.ne, hab.ne', not_lt.mpr hab.le,
        not_lt.mpr hbk.le, hbk.ne, hbk.ne']
    · subst hak
      simp [bumpBT, hbk, hbk.ne, hbk.ne', not_lt.mpr hbk.le, lt_irrefl]
    · subst hak; subst hbk
      simp [bumpBT, lt_irrefl]
    · subst hak
      simp [bumpBT, hbk, hbk.ne, hbk.ne', not_lt.mpr hbk.le, lt_irrefl]
    · have hba : b < a := lt_trans hbk hak
      simp [bumpBT, hak, hbk, hba, hba.ne, hba.ne', not_lt.mpr hba.le,
        not_lt.mpr hak.le, hak.ne, hak.ne']
    · subst hbk
      simp [bumpBT, hak, hak.ne, hak.ne', not_lt.mpr hak.le, lt_irrefl]
    · simp [bumpBT, not_lt.mpr hak.le, not_lt.mpr hbk.le, hak.ne', hbk.ne', ih]

theorem bumpFn_comm {L : Type} [DecidableEq L] (h : L → Nat) (l1 l2 : L) :
    bumpFn (bumpFn h l1) l2 = bumpFn (bumpFn h l2) l1 := by
  funext x
  simp only [bumpFn]
  split_ifs <;> rfl

theorem bumpFC_comm {L F : Type} [DecidableEq L] [DecidableEq F]
    (fc : F → Option (L → Nat)) (f1 : F) (l1 : L) (f2 : F) (l2 : L) :
    bumpFC (bumpFC fc f1 l1) f2 l2 = bumpFC (bumpFC fc f2 l2) f1 l1 := by
  funext g
  by_cases h1 : g = f1 <;> by_cases h2 : g = f2
  · subst h1
    subst h2
    simp [bumpFC, bumpFn_comm]
  · subst h1
    simp [bumpFC, h2]
  · subst h2
    simp [bumpFC, h1]
  · simp [bumpFC, h1, h2]

theorem foldl_bumpFC_single {L F : Type} [DecidableEq L] [DecidableEq F]
    (l0 l : L) (f : F) :
    ∀ (fs : List F) (fc : F → Option (L → Nat)),
      fs.foldl (fun fc g => bumpFC fc g l0) (bumpFC fc f l) =
        bumpFC (fs.foldl (fun fc g => bumpFC fc g l0) fc) f l := by
  intro fs
  induction fs with
  | nil => intro fc; rfl
  | cons g gs ih =>
    intro fc
    simp only [List.foldl_cons]
    rw [bumpFC_comm fc f l g l0, ih (bumpFC fc g l0)]

theorem foldl_bumpFC_batch {L F : Type} [DecidableEq L] [DecidableEq F] (l1 l2 : L) :
    ∀ (fs1 fs2 : List F) (fc : F → Option (L → Nat)),
      fs2.foldl (fun fc g => bumpFC fc g l2) (fs1.foldl (fun fc g => bumpFC fc g l1) fc) =
        fs1.foldl (fun fc g => bumpFC fc g l1) (fs2.foldl (fun fc g => bumpFC fc g l2) fc) := by
  intro fs1
  induction fs1 with
  | nil => intro fs2 fc; rfl
  | cons g gs ih =>
    intro fs2 fc
    simp only [List.foldl_cons]
    rw [ih fs2 (bumpFC fc g l1), foldl_bumpFC_single l2 l1 g fs2 fc]

theorem trainStep_comm {L V F : Type} [LinearOrder L] [DecidableEq F]
    (nb : NaiveBayes L V F) (x y : L × V) :
    trainStep (trainStep nb x) y = trainStep (trainStep nb y) x := by
  obtain ⟨e, lc, fc⟩ := nb
  obtain ⟨l1, v1⟩ := x
  obtain ⟨l2, v2⟩ := y
  simp only [trainStep]
  congr 1
  · exact bumpBT_comm lc l1 l2
  · exact foldl_bumpFC_batch l1 l2 (e v1) (e v2) fc

theorem foldl_comm_of_perm {α β : Type} (g : β → α → β)
    (hg : ∀ s x y, g (g s x) y = g (g s y) x) :
    ∀ {l1 l2 : List α}, l1.Perm l2 → ∀ s, l1.foldl g s = l2.foldl g s := by
  intro l1 l2 hperm
  induction hperm with
  | nil => intro s; rfl
  | cons x _ ih => intro s; simp only [List.foldl_cons]; exact ih (g s x)
  | swap x y l => intro s; simp only [List.foldl_cons]; rw [hg]
  | trans _ _ ih1 ih2 => intro s; rw [ih1 s, ih2 s]

/-- Training on a permutation of a batch produces the identical state. -/
theorem train_perm {L V F : Type} [LinearOrder L] [DecidableEq F]
    (nb : NaiveBayes L V F) {xs ys : List (L × V)} (h : xs.Perm ys) :
    nb.train xs = nb.train ys := by
  unfold NaiveBayes.train
  exact foldl_comm_of_perm trainStep (trainStep_comm) h nb

theorem fcCount_trainStep {L V F : Type} [LinearOrder L] [DecidableEq F]
    (nb : NaiveBayes L V F) (x : L × V) (f : F) (l : L) :
    fcCount (trainStep nb x) f l =
      fcCount nb f l + if l = x.1 then (nb.extractor x.2).count f else 0 :=
  fcCountF_foldl x.1 f l (nb.extractor x.2) nb.feature_counts

theorem trainStep_inv {L V F : Type} [LinearOrder L] [DecidableEq F]
    (nb : NaiveBayes L V F) (x : L × V)
    (hs : sortedKeys nb.label_counts)
    (hnd : ∀ v, (nb.extractor v).Nodup)
    (hinv : ∀ f l, fcCount nb f l ≤ countBT nb.label_counts l) :
    ∀ f l, fcCount (trainStep nb x) f l ≤ countBT (trainStep nb x).label_counts l := by
  intro f l
  rw [fcCount_trainStep]
  show _ ≤ countBT (bumpBT nb.label_counts x.1) l
  rw [countBT_bumpBT nb.label_counts x.1 l hs]
  have hc1 : (nb.extractor x.2).count f ≤ 1 :=
    List.nodup_iff_count_le_one.mp (hnd x.2) f
  have := hinv f l
  by_cases h : l = x.1
  · subst h
    rw [if_pos rfl, if_pos rfl]
    omega
  · simp only [if_neg h]
    omega

theorem train_inv {L V F : Type} [LinearOrder L] [DecidableEq F] :
    ∀ (xs : List (L × V)) (nb : NaiveBayes L V F),
      sortedKeys nb.label_counts →
      (∀ v, (nb.extractor v).Nodup) →
      (∀ f l, fcCount nb f l ≤ countBT nb.label_counts l) →
      ∀ f l, fcCount (nb.train xs) f l ≤ countBT (nb.train xs).label_counts l := by
  intro xs
  induction xs with
  | nil => intro nb _ _ hinv; exact hinv
  | cons x xs ih =>
    intro nb hs hnd hinv
    exact ih (trainStep nb x) (bumpBT_sorted nb.label_counts x.1 hs) hnd
      (trainStep_inv nb x hs hnd hinv)

theorem train_monotone_aux {L V F : Type} [LinearOrder L] [DecidableEq F] :
    ∀ (xs : List (L × V)) (nb : NaiveBayes L V F), sortedKeys nb.label_counts →
      (∀ l, countBT nb.label_counts l ≤ countBT (nb.train xs).label_counts l) ∧
      (∀ f l, fcCount nb f l ≤ fcCount (nb.train xs) f l) := by
  intro xs
  induction xs with
  | nil => intro nb _; exact ⟨fun l => le_refl _, fun f l => le_refl _⟩
  | cons x xs ih =>
    intro nb hs
    obtain ⟨ihc, ihf⟩ := ih (trainStep nb x) (bumpBT_sorted nb.label_counts x.1 hs)
    refine ⟨fun l => le_trans ?_ (ihc l), fun f l => le_trans ?_ (ihf f l)⟩
    · show countBT nb.label_counts l ≤ countBT (bumpBT nb.label_counts x.1) l
      rw [countBT_bumpBT nb.label_counts x.1 l hs]
      exact Nat.le_add_right _ _
    · rw [fcCount_trainStep]
      exact Nat.le_add_right _ _

/-! ### Claim theorems -/

/-- C1: after training a fresh classifier on the five reference examples
with the identity extractor, `classify [('X',5),('Y',2)]` returns 'A',
`classify [('X',4),('Y',1)]` returns 'B' and `classify [('X',3),('Y',3)]`
returns 'A'. -/
theorem c1_reference_scenario :
    testNB.classify [('X', 5), ('Y', 2)] = some 'A' ∧
    testNB.classify [('X', 4), ('Y', 1)] = some 'B' ∧
    testNB.classify [('X', 3), ('Y', 3)] = some 'A' := by
  refine ⟨?_, ?_, ?_⟩ <;>
    norm_num +decide [NaiveBayes.classify, scoresList, applyFeature, stableSort, insertLE,
      NaiveBayes.train, trainStep, bumpBT, bumpFC, bumpFn, countBT, totalBT, pLabel,
      NaiveBayes.new, testNB, testTraining, testExtractor]

/-- C2: classifying against a classifier on which no `train` call has been
made fails — the empty ranking makes `rankings.last().unwrap()` panic,
modelled as `none` — instead of returning an arbitrary label. -/
theorem c2_untrained_classify_fails {L V F : Type} [LinearOrder L]
    (nb : NaiveBayes L V F) (h : nb.label_counts = []) (ex : V) :
    nb.classify ex = none := by
  unfold NaiveBayes.classify
  rw [scoresList_of_untrained nb ex h]
  rfl

/-- Witness for C2: the fresh classifier fails on a concrete example. -/
theorem c2_untrained_classify_fails_witness : untrainedNB.classify 0 = none :=
  c2_untrained_classify_fails untrainedNB rfl 0

/-- C3 as stated is false at a concrete input: feature `('Z', 9)` was never
observed while training `testNB`, yet its multiplicative contribution to
label 'A' is `1` — the `if let Some` branch of `classify` skips a feature
absent from `feature_counts` — and not the claimed
`1 / (count('A') + 1) = 1/4`. -/
theorem c3_counterexample :
    (testNB.feature_counts ('Z', 9)).isNone = true ∧
    factor testNB ('Z', 9) 'A' = 1 ∧
    ¬ factor testNB ('Z', 9) 'A' = 1 / ((countBT testNB.label_counts 'A' : ℚ) + 1) := by
  refine ⟨by decide, ?_, ?_⟩ <;>
    norm_num +decide [factor, pLabel, countBT, totalBT, NaiveBayes.train, trainStep,
      bumpBT, bumpFC, bumpFn, NaiveBayes.new, testNB, testTraining, testExtractor]

/-- C3 amended: every known label's final score is the product over the
extracted features of per-feature factors, and a feature that was never
observed during training (absent from `feature_counts`) contributes the
neutral factor `1` to every label — it is skipped, not add-one smoothed. -/
theorem c3_unseen_feature_contribution {L V F : Type} [LinearOrder L]
    (nb : NaiveBayes L V F) (ex : V) :
    scoresList nb ex = (nb.label_counts.map fun p => (p.1, scoreOf nb ex p.1)) ∧
    ∀ f l, nb.feature_counts f = none → factor nb f l = 1 :=
  ⟨scoresList_eq nb ex, fun f l h => by simp [factor, h]⟩

/-- Witness for C3's amended statement at the trained test classifier and
the unseen feature `('Z', 9)`. -/
theorem c3_unseen_feature_contribution_witness :
    scoresList testNB [('Z', 9)] =
      (testNB.label_counts.map fun p => (p.1, scoreOf testNB [('Z', 9)] p.1)) ∧
    factor testNB ('Z', 9) 'A' = 1 :=
  ⟨(c3_unseen_feature_contribution testNB [('Z', 9)]).1,
   (c3_unseen_feature_contribution testNB [('Z', 9)]).2 ('Z', 9) 'A'
     (Option.isNone_iff_eq_none.mp (by decide))⟩

/-- C4: on a trained classifier, `classify` returns a known label whose
score is maximal; a label with an exactly equal score is never greater than
the returned one — the largest tied label wins the last position of the
stable ascending sort. -/
theorem c4_classify_returns_max {L V F : Type} [LinearOrder L] [DecidableEq F]
    (nb : NaiveBayes L V F) (ex : V) (hr : Reachable nb) (hne : nb.label_counts ≠ []) :
    ∃ l, nb.classify ex = some l ∧ l ∈ nb.label_counts.map Prod.fst ∧
      ∀ l' ∈ nb.label_counts.map Prod.fst,
        scoreOf nb ex l' < scoreOf nb ex l ∨
          (scoreOf nb ex l' = scoreOf nb ex l ∧ l' ≤ l) :=
  classify_spec nb ex (reachable_sorted hr) hne

/-- Witness for C4 at the trained test classifier. -/
theorem c4_classify_returns_max_witness :
    ∃ l, testNB.classify [('X', 5), ('Y', 2)] = some l ∧
      l ∈ testNB.label_counts.map Prod.fst ∧
      ∀ l' ∈ testNB.label_counts.map Prod.fst,
        scoreOf testNB [('X', 5), ('Y', 2)] l' < scoreOf testNB [('X', 5), ('Y', 2)] l ∨
          (scoreOf testNB [('X', 5), ('Y', 2)] l' = scoreOf testNB [('X', 5), ('Y', 2)] l ∧
            l' ≤ l) :=
  c4_classify_returns_max testNB [('X', 5), ('Y', 2)]
    (Reachable.train _ _ (Reachable.new testExtractor)) (by decide)

/-- C5 as stated is false: `dupNB` is reachable (one `train` call on a
fresh classifier), but its extractor returns the feature 'Z' twice for the
single example, so `feature_label_count('Z','A') = 2 > 1 = count('A')`. -/
theorem c5_counterexample :
    Reachable dupNB ∧ fcCount dupNB 'Z' 'A' = 2 ∧
      countBT dupNB.label_counts 'A' = 1 ∧
      ¬ fcCount dupNB 'Z' 'A' ≤ countBT dupNB.label_counts 'A' :=
  ⟨Reachable.train _ _ (Reachable.new dupExtractor), by decide, by decide, by decide⟩

/-- C5 amended: on every reachable state whose extraction function never
repeats a feature within one example, `feature_label_count(f, l) ≤ count(l)`
for every feature and label; the invariant is preserved by every `train`
call. -/
theorem c5_count_consistency {L V F : Type} [LinearOrder L] [DecidableEq F]
    (nb : NaiveBayes L V F) (hr : Reachable nb)
    (hnd : ∀ v, (nb.extractor v).Nodup) :
    ∀ f l, fcCount nb f l ≤ countBT nb.label_counts l := by
  induction hr with
  | new e => intro f l; exact Nat.le_refl 0
  | train nb xs hrnb ih =>
    rw [train_extractor xs nb] at hnd
    exact train_inv xs nb (reachable_sorted hrnb) hnd (ih hnd)

/-- Witness for C5's amended statement on the duplicate-free singleton
classifier. -/
theorem c5_count_consistency_witness :
    fcCount singNB 0 'A' ≤ countBT singNB.label_counts 'A' :=
  c5_count_consistency singNB (Reachable.train _ _ (Reachable.new singExtractor))
    (fun v => List.nodup_singleton v) 0 'A'

/-- C6: training on any permutation of a batch from any common starting
state yields identical label counts, identical feature-conditional counts,
and identical classification behaviour afterwards. -/
theorem c6_train_order_invariant {L V F : Type} [LinearOrder L] [DecidableEq F]
    (nb : NaiveBayes L V F) (xs ys : List (L × V)) (h : xs.Perm ys) :
    (nb.train xs).label_counts = (nb.train ys).label_counts ∧
    (nb.train xs).feature_counts = (nb.train ys).feature_counts ∧
    ∀ ex, (nb.train xs).classify ex = (nb.train ys).classify ex := by
  rw [train_perm nb h]
  exact ⟨rfl, rfl, fun _ => rfl⟩

/-- Witness for C6 on a two-example batch and its transposition. -/
theorem c6_train_order_invariant_witness :
    (permBase.train [('A', 0), ('B', 1)]).label_counts =
      (permBase.train [('B', 1), ('A', 0)]).label_counts ∧
    (permBase.train [('A', 0), ('B', 1)]).feature_counts =
      (permBase.train [('B', 1), ('A', 0)]).feature_counts ∧
    ∀ ex, (permBase.train [('A', 0), ('B', 1)]).classify ex =
      (permBase.train [('B', 1), ('A', 0)]).classify ex :=
  c6_train_order_invariant permBase [('A', 0), ('B', 1)] [('B', 1), ('A', 0)]
    (List.Perm.swap ('B', 1) ('A', 0) [])

/-- C7: a `train` call never decreases any label count or any feature-label
count of a reachable state — accumulation is purely additive. -/
theorem c7_train_monotone {L V F : Type} [LinearOrder L] [DecidableEq F]
    (nb : NaiveBayes L V F) (xs : List (L × V)) (hr : Reachable nb) :
    (∀ l, countBT nb.label_counts l ≤ countBT (nb.train xs).label_counts l) ∧
    (∀ f l, fcCount nb f l ≤ fcCount (nb.train xs) f l) :=
  train_monotone_aux xs nb (reachable_sorted hr)

/-- Witness for C7: an additional batch on the trained test classifier. -/
theorem c7_train_monotone_witness :
    countBT testNB.label_counts 'A' ≤
      countBT ((testNB.train [('A', [(('X' : Char), (1 : Int))])]).label_counts) 'A' ∧
    fcCount testNB ('X', 5) 'A' ≤
      fcCount (testNB.train [('A', [(('X' : Char), (1 : Int))])]) ('X', 5) 'A' :=
  ⟨(c7_train_monotone testNB [('A', [('X', 1)])]
      (Reachable.train _ _ (Reachable.new testExtractor))).1 'A',
   (c7_train_monotone testNB [('A', [('X', 1)])]
      (Reachable.train _ _ (Reachable.new testExtractor))).2 ('X', 5) 'A'⟩

/-- C8: classifying the same example twice against the same model gives the
same result: `classify` is embedded as a pure function of the unmodified
model and the example (the source takes `&self` and a pure extractor), so
the two runs coincide definitionally. -/
theorem c8_classify_deterministic {L V F : Type} [LinearOrder L]
    (nb : NaiveBayes L V F) (ex : V) : nb.classify ex = nb.classify ex := rfl

/-- C9 as stated is false: on an extraction failure the engine has already
bumped the failing example's label count (from 0 to 1 here) even though no
feature count of that example is recorded — the mutation is not
all-or-nothing — while the failure itself does propagate. -/
theorem c9_counterexample :
    (trainE failExtract failBase [('A', 0)]).2 = false ∧
    countBT (trainE failExtract failBase [('A', 0)]).1.label_counts 'A' = 1 ∧
    countBT failBase.label_counts 'A' = 0 ∧
    (trainE failExtract failBase [('A', 0)]).1.feature_counts = failBase.feature_counts :=
  ⟨by decide, by decide, by decide, rfl⟩

/-- C9 amended: when extraction fails on an example, the failure propagates
unchanged (no retry: the remaining examples are not processed) and none of
the failing example's feature counts are recorded, but the failing
example's label count has already been incremented, because the source
bumps the label before invoking the extractor. -/
theorem c9_extraction_failure {L V F : Type} [LinearOrder L] [DecidableEq F]
    (extractE : V → Option (List F)) (nb : NaiveBayes L V F) (l : L) (v : V)
    (rest : List (L × V)) (h : extractE v = none) :
    trainE extractE nb ((l, v) :: rest) =
      ({ nb with label_counts := bumpBT nb.label_counts l }, false) := by
  unfold trainE
  rw [h]

/-- Witness for C9's amended statement with an always-failing extraction
function. -/
theorem c9_extraction_failure_witness :
    trainE failExtract failBase [('A', 0)] =
      ({ failBase with label_counts := bumpBT failBase.label_counts 'A' }, false) :=
  c9_extraction_failure failExtract failBase 'A' 0 [] rfl

/-- C10: on a trained classifier, when extraction returns no features every
label's score stays at its initial value 1 and `classify` returns the
greatest known label in the label order. -/
theorem c10_empty_features {L V F : Type} [LinearOrder L] [DecidableEq F]
    (nb : NaiveBayes L V F) (ex : V) (hr : Reachable nb) (hne : nb.label_counts ≠ [])
    (hext : nb.extractor ex = []) :
    (∀ l, scoreOf nb ex l = 1) ∧
    ∃ l, nb.classify ex = some l ∧ l ∈ nb.label_counts.map Prod.fst ∧
      ∀ l' ∈ nb.label_counts.map Prod.fst, l' ≤ l := by
  have hsc : ∀ l, scoreOf nb ex l = 1 := by
    intro l
    unfold scoreOf
    rw [hext]
    simp
  refine ⟨hsc, ?_⟩
  obtain ⟨l, hcl, hmem, hmax⟩ := classify_spec nb ex (reachable_sorted hr) hne
  refine ⟨l, hcl, hmem, ?_⟩
  intro l' hl'
  rcases hmax l' hl' with h | h
  · rw [hsc l', hsc l] at h
    exact absurd h (lt_irrefl 1)
  · exact h.2

/-- Witness for C10: the test classifier on the empty example. -/
theorem c10_empty_features_witness :
    (∀ l, scoreOf testNB [] l = 1) ∧
    ∃ l, testNB.classify [] = some l ∧ l ∈ testNB.label_counts.map Prod.fst ∧
      ∀ l' ∈ testNB.label_counts.map Prod.fst, l' ≤ l :=
  c10_empty_features testNB [] (Reachable.train _ _ (Reachable.new testExtractor))
    (by decide) rfl

end NB
